import Mathlib

/-!
Verification of the crypt14 decryptor (decrypt14.py).

The development shallowly embeds the algorithmic core of the program:
the oscillating offset sequencer, the two-stage validation oracle
(find_data_offset / test_decompression), the discovery loop, the
precondition checks of decrypt14, and the streaming decrypt+decompress
phase.  External collaborators (the AES-GCM cipher and the zlib
decompressor) are modelled as abstract state machines passed in as
parameters, exactly mirroring how the code calls them: a fresh cipher
per probe, a feed/eof interface for the streaming decompressor.

Bytes are modelled as natural numbers, byte strings as List Nat.
Python integers are modelled as Int.  Process exits raised by the
logger (log.e without force, log.f) and uncaught Python exceptions are
modelled with an Except monad whose error type records which failure
site fired.
-/

/-! ## Constants from the source -/

def HEADER_SIZE : Int := 512

def DEFAULT_DATA_OFFSET : Int := 191

def DEFAULT_IV_OFFSET : Int := 67

/-- ASCII bytes of the string SQLite format 3 (15 bytes). -/
def sqliteSig : List Nat := [83, 81, 76, 105, 116, 101, 32, 102, 111, 114, 109, 97, 116, 32, 51]

/-- ZIP_HEADERS contains the single two byte zlib magic 78 01, that is bytes 120 and 1. -/
def zipHeader : List Nat := [120, 1]

/-! ## Python helpers: slices, range, bytes.find -/

/-- Python range(lo, hi + 1): the integers lo, lo+1, ..., hi (empty when hi < lo). -/
def intRangeAsc (lo hi : Int) : List Int :=
  (List.range (hi + 1 - lo).toNat).map (fun k : Nat => lo + (k : Int))

/-- Python range(hi, lo - 1, -1): the integers hi, hi-1, ..., lo (empty when hi < lo). -/
def intRangeDesc (hi lo : Int) : List Int :=
  (List.range (hi + 1 - lo).toNat).map (fun k : Nat => hi - (k : Int))

/-- Python slice l[a:b] for the non-negative indices used by the program. -/
def pySlice (l : List Nat) (a b : Int) : List Nat :=
  (l.drop a.toNat).take (b - a).toNat

/-- Python slice l[a:] for the non-negative indices used by the program. -/
def pyDrop (l : List Nat) (a : Int) : List Nat :=
  l.drop a.toNat

/-- Python bytes.find helper: index of the first occurrence of pat at or after
position i, or -1. -/
def bfindAux (pat : List Nat) : List Nat → Int → Int
  | [], i => if pat.isPrefixOf ([] : List Nat) then i else -1
  | l@(_ :: r), i => if pat.isPrefixOf l then i else bfindAux pat r (i + 1)

/-- Python bytes.find: first index where pat occurs in h, or -1. -/
def bfind (h pat : List Nat) : Int :=
  bfindAux pat h 0

/-! ## The oscillate generator (decrypt14.py lines 88-131)

The Python generator is an unbounded while loop followed by two
conditional sweeps.  The loop is embedded with an explicit fuel
parameter; oscFuel exceeds every break time the loop can reach on the
inputs where the Python loop terminates, so on those inputs the fuel
never runs out.  The guard n != i / 2 of the second phase uses Python
float division; for integers it is equivalent to 2 * n != i, and it is
modelled that way. -/

/-- One while-loop iteration state of oscillate: current value i and step c.
Returns the yielded values of the remaining loop iterations together with the
final i and c at the break. -/
def oscLoop (n_min n_max : Int) : Nat → Int → Int → List Int × Int × Int
  | 0, i, c => ([], i, c)
  | fuel + 1, i, c =>
    if i = n_max then ([], i, c)
    else
      if i - c = 0 ∨ i - c = n_min then ([i], i - c, c + 1)
      else
        let r := oscLoop n_min n_max fuel ((i - c) + (c + 1)) ((c + 1) + 1)
        (i :: (i - c) :: r.1, r.2)

/-- Fuel bound for oscLoop: strictly more loop iterations than any break time
reachable from the initial state (n, 1). -/
def oscFuel (n n_min n_max : Int) : Nat :=
  (n_max - n).toNat + n.toNat + (n - n_min).toNat + (n_max - n_min).toNat + 1 + 1

/-- Second phase of oscillate (the two conditional sweeps after the loop),
applied to the loop result (yielded values, final i, final c). -/
def oscPhase2 (n n_min n_max : Int) : List Int × Int × Int → List Int
  | (out1, i1, c1) =>
    let p2 : List Int × Int :=
      if i1 = n_min ∧ ¬(2 * n = i1) then
        (i1 :: intRangeAsc (i1 + c1) n_max, i1 + c1)
      else ([], i1)
    out1 ++ p2.1 ++
      (if p2.2 = n_max ∧ ¬(2 * n = p2.2) then
        n_max :: intRangeDesc (p2.2 - c1) n_min
      else [])

/-- oscillate(n, n_min, n_max) from decrypt14.py: clamps n_min to 0, runs the
oscillating loop, then the two sweeps. -/
def oscillate (n n_min n_max : Int) : List Int :=
  let m : Int := if n_min < 0 then 0 else n_min
  oscPhase2 n m n_max (oscLoop m n_max (oscFuel n m n_max) n 1)

example : oscillate 8 2 10 = [8, 7, 9, 6, 10, 5, 4, 3, 2] := by decide

/-! ## The version regex (decrypt14.py line 298)

findall(b"\\d(?:\\.\\d\x7b1,3\x7d)\x7b3\x7d", db_header): a digit followed by
three groups, each a dot and one to three digits.  For this pattern a
greedy match without backtracking is equivalent to the Python regex
engine: shortening a digit run can never help, because the character
after the shortened run would be a digit, and the continuation always
demands a dot (or nothing).  findall scans left to right and resumes
after the end of each match (non-overlapping matches). -/

/-- ASCII digit test. -/
def isDigit (b : Nat) : Bool :=
  48 ≤ b && b ≤ 57

/-- Number of leading ASCII digits. -/
def digitsPrefix : List Nat → Nat
  | [] => 0
  | b :: r => if isDigit b then digitsPrefix r + 1 else 0

/-- Match one group (\.\d one-to-three times, greedy): returns the number of
bytes consumed, or none.  Byte 46 is the ASCII dot. -/
def groupMatch (l : List Nat) : Option Nat :=
  match l with
  | 46 :: r =>
    let k := min 3 (digitsPrefix r)
    if k = 0 then none else some (1 + k)
  | _ => none

/-- Match the full version pattern at the head of l: returns the match length
or none. -/
def matchVer (l : List Nat) : Option Nat :=
  match l with
  | [] => none
  | b :: r =>
    if isDigit b then
      match groupMatch r with
      | none => none
      | some k1 =>
        match groupMatch (r.drop k1) with
        | none => none
        | some k2 =>
          match groupMatch ((r.drop k1).drop k2) with
          | none => none
          | some k3 => some (1 + k1 + k2 + k3)
    else none

/-- Scanner for findall: fuel-bounded left-to-right scan; after a match of
length k (always at least 7) the scan resumes k bytes further on. -/
def verCountF : Nat → List Nat → Nat
  | 0, _ => 0
  | _, [] => 0
  | fuel + 1, l@(_ :: r) =>
    match matchVer l with
    | some k => 1 + verCountF fuel (l.drop k)
    | none => verCountF fuel r

/-- len(findall(version pattern, l)). -/
def verCount (l : List Nat) : Nat :=
  verCountF (l.length + 1) l

/-! ## External collaborator models

The cipher (AES-GCM used as a pure keystream decrypter: the code never
verifies a tag) and the zlib decompressor are external libraries; the
code only ever interacts with them through the calls modelled here.
Both carry internal stream state, so they are modelled as state
machines. -/

/-- The authenticated cipher as used by the code: AES.new(key, MODE_GCM, iv)
gives a fresh state, decrypt advances it. -/
structure CipherModel (CS : Type) where
  cinit : List Nat → List Nat → CS
  cdec : CS → List Nat → List Nat × CS

/-- The zlib streaming decompressor: decompressobj() gives a fresh state,
decompress feeds bytes (none models a raised zlib.error), eof reports a clean
end of stream. -/
structure ZlibModel (ZS : Type) where
  zinit : ZS
  zfeed : ZS → List Nat → Option (List Nat × ZS)
  zeof : ZS → Bool

/-- A fresh cipher decrypting a single buffer, as in every probe of
find_data_offset. -/
def decOnce {CS : Type} (C : CipherModel CS) (key iv data : List Nat) : List Nat :=
  (C.cdec (C.cinit key iv) data).1

/-- zlib.decompressobj().decompress(data): a fresh decompressor fed once. -/
def zDecOne {ZS : Type} (Z : ZlibModel ZS) (data : List Nat) : Option (List Nat) :=
  (Z.zfeed Z.zinit data).map Prod.fst

/-! ## Failure sites

Each constructor records which check terminated (or crashed) the run.
log.e prints and exits unless force is set; log.f always exits. -/

/-- Failure sites of the program. -/
inductive Err : Type where
  | tooSmall
  | notEncrypted
  | t1Missing
  | versionMissing
  | chunkTooSmall
  | sigMismatch
  | decodeCrash
  | offsetsNotFound
  | truncated
  | zlibCrash
deriving DecidableEq, Repr

/-- Log.e: prints the message and exits unless force is enabled. -/
def logE (force : Bool) (e : Err) : Except Err Unit :=
  if force then .ok () else .error e

/-! ## test_decompression (decrypt14.py lines 218-235)

A fresh decompressobj decompresses the data; zlib.error is caught and
yields False; fewer than 16 bytes trigger log.e then False; the 15 byte
prefix is then ASCII-decoded (an uncaught UnicodeDecodeError if any
byte is 128 or more) and compared with the SQLite signature; a mismatch
triggers log.e and returns log.force; a match returns True. -/

def test_decompression {ZS : Type} (Z : ZlibModel ZS) (force : Bool)
    (test_data : List Nat) : Except Err Bool :=
  match zDecOne Z test_data with
  | none => .ok false
  | some out =>
    if out.length < 16 then
      match logE force .chunkTooSmall with
      | .error e => .error e
      | .ok _ => .ok false
    else if (out.take 15).any (fun b => 128 ≤ b) then
      .error .decodeCrash
    else if (out.take 15) ≠ sqliteSig then
      match logE force .sigMismatch with
      | .error e => .error e
      | .ok _ => .ok force
    else
      .ok true

/-! ## find_data_offset (decrypt14.py lines 238-263) -/

/-- The inner candidate loop of find_data_offset: for each candidate i, a
fresh cipher decrypts the two bytes at i; on a zlib magic match (the single
entry of ZIP_HEADERS) a fresh cipher decrypts the header from i on and
test_decompression confirms; a confirmed candidate is returned, otherwise the
loop continues; exhaustion returns -1. -/
def findLoop {ZS CS : Type} (Z : ZlibModel ZS) (C : CipherModel CS)
    (force : Bool) (header key iv : List Nat) : List Int → Except Err Int
  | [] => .ok (-1)
  | i :: rest =>
    let test_bytes := decOnce C key iv (pySlice header i (i + 2))
    if test_bytes = zipHeader then
      match test_decompression Z force (decOnce C key iv (pyDrop header i)) with
      | .error e => .error e
      | .ok t => if t then .ok i else findLoop Z C force header key iv rest
    else
      findLoop Z C force header key iv rest

/-- find_data_offset: iv is header[iv_offset : iv_offset+16]; candidates come
from oscillate(DEFAULT_DATA_OFFSET, iv_offset + len(iv), HEADER_SIZE - 128). -/
def find_data_offset {ZS CS : Type} (Z : ZlibModel ZS) (C : CipherModel CS)
    (force : Bool) (header : List Nat) (iv_offset : Int) (key : List Nat) :
    Except Err Int :=
  let iv := pySlice header iv_offset (iv_offset + 16)
  findLoop Z C force header key iv
    (oscillate DEFAULT_DATA_OFFSET (iv_offset + (iv.length : Int)) (HEADER_SIZE - 128))

/-! ## Offset discovery (decrypt14.py lines 305-312) -/

/-- The outer loop of decrypt14: probe each iv offset, stop at the first probe
returning something other than -1. -/
def discoverLoop (probe : Int → Except Err Int) :
    List Int → Except Err (Option (Int × Int))
  | [] => .ok none
  | iv :: rest =>
    match probe iv with
    | .error e => .error e
    | .ok off => if off ≠ -1 then .ok (some (iv, off)) else discoverLoop probe rest

/-- Discovery: iv offsets iterate oscillate(DEFAULT_IV_OFFSET, 0,
HEADER_SIZE - 128); exhaustion hits log.f (always fatal). -/
def discover (probe : Int → Except Err Int) : Except Err (Int × Int) :=
  match discoverLoop probe (oscillate DEFAULT_IV_OFFSET 0 (HEADER_SIZE - 128)) with
  | .error e => .error e
  | .ok (some p) => .ok p
  | .ok none => .error .offsetsNotFound

/-! ## The streaming phase (decrypt14.py lines 314-349) -/

/-- Final observable outcome of the streaming phase: the bytes the output
file holds at the end, the exit error if the run terminated abnormally, and
whether the truncation message was reported. -/
structure StreamResult : Type where
  file : List Nat
  exitErr : Option Err
  truncationReported : Bool
deriving DecidableEq, Repr

/-- Whole-buffer mode: decrypt everything, decompress in one call, check eof
before the single write; log.e on a dirty end of stream (exit unless force,
and on exit nothing has been written). -/
def streamWhole {ZS CS : Type} (Z : ZlibModel ZS) (C : CipherModel CS)
    (force : Bool) (key iv input : List Nat) : StreamResult :=
  let dec := (C.cdec (C.cinit key iv) input).1
  match Z.zfeed Z.zinit dec with
  | none => ⟨[], some .zlibCrash, false⟩
  | some (out, zs) =>
    if Z.zeof zs then ⟨out, none, false⟩
    else if force then ⟨out, none, true⟩
    else ⟨[], some .truncated, true⟩

/-- Fuel-bounded chunk splitter; every step consumes at least one byte, so a
fuel of the input length suffices. -/
def chunkifyF : Nat → List Nat → List (List Nat)
  | 0, _ => []
  | _, [] => []
  | fuel + 1, l@(_ :: _) => l.take 8192 :: chunkifyF fuel (l.drop 8192)

/-- io.DEFAULT_BUFFER_SIZE sized chunks of the remaining input. -/
def chunkify (l : List Nat) : List (List Nat) :=
  chunkifyF l.length l

/-- Result of the chunked loop: crashed on an uncaught zlib.error (with the
bytes already written), or finished with the written bytes and the final
decompressor state. -/
inductive ChunkOut (ZS : Type) : Type where
  | crashed (file : List Nat)
  | finished (file : List Nat) (zs : ZS)

/-- The chunked loop: decrypt each chunk with the ongoing cipher state, feed
it to the ongoing decompressor, append whatever came out to the output
file. -/
def chunkLoop {ZS CS : Type} (Z : ZlibModel ZS) (C : CipherModel CS) :
    List (List Nat) → ZS → CS → List Nat → ChunkOut ZS
  | [], zs, _, acc => .finished acc zs
  | ch :: rest, zs, cs, acc =>
    let d := C.cdec cs ch
    match Z.zfeed zs d.1 with
    | none => .crashed acc
    | some (out, zs2) => chunkLoop Z C rest zs2 d.2 (acc ++ out)

/-- Chunked mode: after the loop, a dirty end of stream truncates the output
to zero length (unless force) and hits log.e (exit unless force). -/
def streamChunked {ZS CS : Type} (Z : ZlibModel ZS) (C : CipherModel CS)
    (force : Bool) (key iv input : List Nat) : StreamResult :=
  match chunkLoop Z C (chunkify input) Z.zinit (C.cinit key iv) [] with
  | .crashed f => ⟨f, some .zlibCrash, false⟩
  | .finished f zs =>
    if Z.zeof zs then ⟨f, none, false⟩
    else if force then ⟨f, none, true⟩
    else ⟨[], some .truncated, true⟩

/-! ## decrypt14 (decrypt14.py lines 266-358)

The pipeline after the key file has been parsed: read the 512 byte
header, size check (log.f), plaintext check (the UnicodeDecodeError of
decode is caught there, so the check only fires on an exact signature
match), t1 cross-check (log.e), version count check (log.e), offset
discovery, then the streaming phase from the data offset on. -/

def decrypt14 {ZS CS : Type} (Z : ZlibModel ZS) (C : CipherModel CS)
    (force : Bool) (t1 key fileBytes : List Nat) (mem_approach : Bool) :
    Except Err StreamResult :=
  let db_header := fileBytes.take HEADER_SIZE.toNat
  if (db_header.length : Int) < HEADER_SIZE then .error .tooSmall
  else
    match (if db_header.take 15 = sqliteSig then logE force .notEncrypted else .ok ()) with
    | .error e => .error e
    | .ok _ =>
      match (if bfind db_header t1 = -1 then logE force .t1Missing else .ok ()) with
      | .error e => .error e
      | .ok _ =>
        match (if verCount db_header ≠ 1 then logE force .versionMissing else .ok ()) with
        | .error e => .error e
        | .ok _ =>
          match discover (fun iv => find_data_offset Z C force db_header iv key) with
          | .error e => .error e
          | .ok p =>
            let iv := pySlice db_header p.1 (p.1 + 16)
            let rest := pyDrop fileBytes p.2
            .ok (if mem_approach then streamWhole Z C force key iv rest
                 else streamChunked Z C force key iv rest)

/-! ## Reference shape of the first phase of oscillate

ileave x y m is the interleaving x, y, x+1, y-1, ..., x+m-1, y-m+1 of
m ascending and m descending values; the terminating first phase of
oscillate always produces such an interleaving followed by one final
ascending value. -/

def ileave : Int → Int → Nat → List Int
  | _, _, 0 => []
  | x, y, m + 1 => x :: y :: ileave (x + 1) (y - 1) m

/-! ## Concrete collaborator instances used by witnesses and counterexamples -/

/-- A zlib model whose decompressor always raises. -/
def ZTriv : ZlibModel Unit :=
  ⟨(), fun _ _ => none, fun _ => true⟩

/-- The identity cipher: decryption returns the input unchanged. -/
def CId : CipherModel Unit :=
  ⟨fun _ _ => (), fun s d => (d, s)⟩

/-- Sixteen zero bytes: long enough to pass the length check of
test_decompression, ASCII-decodable, and different from the SQLite
signature. -/
def badOut : List Nat := List.replicate 16 0

/-- A zlib model that decompresses anything to badOut. -/
def ZBad : ZlibModel Unit :=
  ⟨(), fun _ _ => some (badOut, ()), fun _ => true⟩

/-- A zlib model that echoes its input and never reports a clean end of
stream (its state counts the feeds). -/
def ZNoEof : ZlibModel Nat :=
  ⟨0, fun s d => some (d, s + 1), fun _ => false⟩

/-- A 512 byte header whose only structure is the zlib magic at the default
data offset 191. -/
def headerCE : List Nat :=
  List.replicate 191 0 ++ [120, 1] ++ List.replicate 319 0

/-- A 512 byte header of zeroes. -/
def headerZeros : List Nat := List.replicate 512 0

/-- A 32 byte t1 of ones: absent from headerZeros, present at offset 0 of
headerT1. -/
def t1Ones : List Nat := List.replicate 32 1

/-- A 512 byte header beginning with t1Ones and otherwise zero. -/
def headerT1 : List Nat := List.replicate 32 1 ++ List.replicate 480 0

/-! ## Helper lemmas -/

theorem mem_intRangeAsc {lo hi x : Int} :
    x ∈ intRangeAsc lo hi ↔ lo ≤ x ∧ x ≤ hi := by
  unfold intRangeAsc
  simp only [List.mem_map, List.mem_range]
  constructor
  · rintro ⟨k, hk, rfl⟩
    omega
  · intro h
    exact ⟨(x - lo).toNat, by omega, by omega⟩

theorem intRangeAsc_eq_cons {lo hi : Int} (h : lo ≤ hi) :
    intRangeAsc lo hi = lo :: intRangeAsc (lo + 1) hi := by
  unfold intRangeAsc
  have h1 : (hi + 1 - lo).toNat = (hi + 1 - (lo + 1)).toNat + 1 := by omega
  rw [h1, List.range_succ_eq_map, List.map_cons, List.map_map]
  have h2 : ((fun k : Nat => lo + (k : Int)) ∘ Nat.succ) =
      fun k : Nat => (lo + 1) + (k : Int) := by
    funext k
    simp only [Function.comp_apply]
    push_cast
    ring
  rw [h2]
  norm_num

theorem intRangeDesc_self (a : Int) : intRangeDesc a a = [a] := by
  unfold intRangeDesc
  have h1 : (a + 1 - a).toNat = 1 := by omega
  rw [h1]
  simp [List.range_succ]

theorem mem_ileave {m : Nat} : ∀ {x y z : Int}, z ∈ ileave x y m →
    (x ≤ z ∧ z ≤ x + m - 1) ∨ (y - m + 1 ≤ z ∧ z ≤ y) := by
  induction m with
  | zero =>
    intro x y z h
    simp [ileave] at h
  | succ m ih =>
    intro x y z h
    simp only [ileave, List.mem_cons] at h
    rcases h with rfl | rfl | h
    · left
      push_cast
      omega
    · right
      push_cast
      omega
    · rcases ih h with h1 | h1
      · left
        push_cast at h1 ⊢
        omega
      · right
        push_cast at h1 ⊢
        omega

theorem ileave_mem_top {m : Nat} : ∀ {x y z : Int}, x ≤ z → z ≤ x + m - 1 →
    z ∈ ileave x y m := by
  induction m with
  | zero =>
    intro x y z h1 h2
    exfalso
    push_cast at h2
    omega
  | succ m ih =>
    intro x y z h1 h2
    simp only [ileave, List.mem_cons]
    rcases eq_or_lt_of_le h1 with h | h
    · exact Or.inl h.symm
    · refine Or.inr (Or.inr (ih (by omega) ?_))
      push_cast at h2 ⊢
      omega

theorem ileave_mem_bot {m : Nat} : ∀ {x y z : Int}, y - m + 1 ≤ z → z ≤ y →
    z ∈ ileave x y m := by
  induction m with
  | zero =>
    intro x y z h1 h2
    exfalso
    push_cast at h1
    omega
  | succ m ih =>
    intro x y z h1 h2
    simp only [ileave, List.mem_cons]
    rcases eq_or_lt_of_le h2 with h | h
    · exact Or.inr (Or.inl h)
    · refine Or.inr (Or.inr (ih ?_ (by omega)))
      push_cast at h1 ⊢
      omega

/-- Characterization of the oscillate while loop on the states it actually
reaches: from state (x, c) whose next descending value is stop + m, with the
break value stop being 0 or n_min, no earlier descending break and no
ascending top reaching n_max, the loop emits the interleaving and halts at
(stop, c + 2m + 1). -/
theorem oscLoop_run (n_min n_max stop : Int) (hstop : stop = 0 ∨ stop = n_min) :
    ∀ (m fuel : Nat) (x c : Int), m + 1 ≤ fuel →
      x - c = stop + m →
      x + m < n_max →
      (∀ d : Int, stop < d → d ≤ stop + m → ¬(d = 0 ∨ d = n_min)) →
      oscLoop n_min n_max fuel x c =
        (ileave x (stop + m) m ++ [x + m], stop, c + 2 * m + 1) := by
  intro m
  induction m with
  | zero =>
    intro fuel x c hfuel hxc hmax hd
    obtain ⟨f, rfl⟩ : ∃ f, fuel = f + 1 := ⟨fuel - 1, by omega⟩
    simp only [oscLoop]
    rw [if_neg (by push_cast at hmax; omega), if_pos]
    · push_cast at hxc
      simp only [ileave, List.nil_append, Prod.mk.injEq, List.cons.injEq]
      push_cast
      refine ⟨⟨by ring, trivial⟩, by omega, by ring⟩
    · push_cast at hxc
      rcases hstop with rfl | rfl
      · exact Or.inl (by omega)
      · exact Or.inr (by omega)
  | succ m ih =>
    intro fuel x c hfuel hxc hmax hd
    obtain ⟨f, rfl⟩ : ∃ f, fuel = f + 1 := ⟨fuel - 1, by omega⟩
    simp only [oscLoop]
    rw [if_neg (by push_cast at hmax; omega), if_neg (by
      push_cast at hxc
      intro hbreak
      exact hd (x - c) (by omega) (by push_cast; omega) hbreak)]
    rw [show (x - c) + (c + 1) = x + 1 by ring]
    rw [ih f (x + 1) ((c + 1) + 1) (by omega)
      (by push_cast at hxc ⊢; omega)
      (by push_cast at hmax ⊢; omega)
      (fun d hd1 hd2 => hd d hd1 (by push_cast at hd2 ⊢; omega))]
    push_cast at hxc ⊢
    simp only [ileave, List.cons_append, Prod.mk.injEq, List.cons.injEq]
    refine ⟨⟨trivial, by omega, ?_⟩, trivial, by ring⟩
    rw [show stop + ((m : Int) + 1) - 1 = stop + m by ring,
      show x + ((m : Int) + 1) = x + 1 + m by ring]

/-- Full description of oscillate when the clamped minimum is below the start
and the descending side breaks first (strictly, when 2n - n_min - 1 < n_max):
the interleaved first phase down to n_min + 1, the final ascending value
2n - n_min - 1, then the first sweep n_min, 2n - n_min, ..., n_max, and --
only when 2n - n_min = n_max with n_min nonzero -- a duplicated n_max and
n_min from the second sweep. -/
theorem oscillate_eq_mid {n n_min n_max : Int} (h0 : 0 ≤ n_min) (h1 : n_min < n)
    (h2 : 2 * n - n_min - 1 < n_max) :
    oscillate n n_min n_max =
      (ileave n (n - 1) (n - n_min - 1).toNat ++ [2 * n - n_min - 1]) ++
      ((n_min :: intRangeAsc (2 * n - n_min) n_max) ++
        (if 2 * n - n_min = n_max ∧ n_min ≠ 0 then [n_max, n_min] else [])) := by
  have hm : (((n - n_min - 1).toNat : Int)) = n - n_min - 1 := by omega
  unfold oscillate
  rw [if_neg (by omega)]
  show oscPhase2 n n_min n_max (oscLoop n_min n_max (oscFuel n n_min n_max) n 1) = _
  rw [oscLoop_run n_min n_max n_min (Or.inr rfl) (n - n_min - 1).toNat
    (oscFuel n n_min n_max) n 1
    (by unfold oscFuel; omega)
    (by rw [hm]; ring)
    (by rw [hm]; omega)
    (by intro d hd1 hd2; rw [hm] at hd2; omega)]
  rw [hm]
  simp only [oscPhase2]
  rw [if_pos ⟨trivial, (by omega : ¬(2 * n = n_min))⟩]
  simp only
  have hc1 : n_min + (1 + 2 * (n - n_min - 1) + 1) = 2 * n - n_min := by ring
  rw [hc1]
  by_cases hdup : 2 * n - n_min = n_max ∧ n_min ≠ 0
  · rw [if_pos ⟨hdup.1, (by omega : ¬(2 * n = 2 * n - n_min))⟩, if_pos hdup]
    have hdesc : 2 * n - n_min - (1 + 2 * (n - n_min - 1) + 1) = n_min := by ring
    rw [hdesc, hdup.1, intRangeDesc_self]
    rw [show n_min + (n - n_min - 1) = n - 1 by ring,
      show n + (n - n_min - 1) = 2 * n - n_min - 1 by ring]
    simp
    exact hdup.1
  · rw [if_neg (fun h => hdup ⟨h.1, by omega⟩), if_neg hdup]
    rw [show n_min + (n - n_min - 1) = n - 1 by ring,
      show n + (n - n_min - 1) = 2 * n - n_min - 1 by ring]
    simp

/-- Full description of oscillate when the start does not exceed the clamped
minimum (so the descending side never hits n_min and breaks at 0 instead,
provided 2n - 1 < n_max): the interleaving down to 1 followed by 2n - 1, with
no second phase at all. -/
theorem oscillate_eq_low {n n_min n_max : Int} (h0 : 0 < n) (h1 : n ≤ n_min)
    (h2 : 2 * n - 1 < n_max) :
    oscillate n n_min n_max = ileave n (n - 1) (n - 1).toNat ++ [2 * n - 1] := by
  have hm : (((n - 1).toNat : Int)) = n - 1 := by omega
  unfold oscillate
  rw [if_neg (by omega)]
  show oscPhase2 n n_min n_max (oscLoop n_min n_max (oscFuel n n_min n_max) n 1) = _
  rw [oscLoop_run n_min n_max 0 (Or.inl rfl) (n - 1).toNat
    (oscFuel n n_min n_max) n 1
    (by unfold oscFuel; omega)
    (by rw [hm]; ring)
    (by rw [hm]; omega)
    (by intro d hd1 hd2; rw [hm] at hd2; omega)]
  rw [hm]
  simp only [oscPhase2]
  rw [if_neg (fun h => by omega : ¬((0 : Int) = n_min ∧ ¬(2 * n = 0)))]
  simp only
  rw [if_neg (fun h => by omega : ¬((0 : Int) = n_max ∧ ¬(2 * n = 0)))]
  rw [show (0 : Int) + (n - 1) = n - 1 by ring,
    show n + (n - 1) = 2 * n - 1 by ring]
  simp

/-- The outer discovery sequence in closed form. -/
theorem oscillate_outer_eq :
    oscillate 67 0 384 = (ileave 67 66 66 ++ [133]) ++ ((0 :: intRangeAsc 134 384) ++ []) := by
  have h := @oscillate_eq_mid 67 0 384 (by norm_num) (by norm_num) (by norm_num)
  rw [h]
  norm_num
  rfl

/-- The outer discovery sequence ranges exactly over [0, 384]. -/
theorem oscillate_outer_mem {x : Int} : x ∈ oscillate 67 0 384 ↔ 0 ≤ x ∧ x ≤ 384 := by
  rw [oscillate_outer_eq]
  simp only [List.append_nil, List.mem_append, List.mem_cons, List.mem_singleton,
    List.not_mem_nil, or_false, mem_intRangeAsc]
  constructor
  · rintro ((h | rfl) | rfl | h)
    · rcases mem_ileave h with ⟨h1, h2⟩ | ⟨h1, h2⟩ <;> push_cast at h1 h2 <;> omega
    · omega
    · omega
    · omega
  · intro hx
    rcases (by omega :
        (1 ≤ x ∧ x ≤ 66) ∨ (67 ≤ x ∧ x ≤ 132) ∨ x = 133 ∨ x = 0 ∨ (134 ≤ x ∧ x ≤ 384))
      with h | h | h | h | h
    · exact Or.inl (Or.inl (ileave_mem_bot (by push_cast; omega) (by omega)))
    · exact Or.inl (Or.inl (ileave_mem_top (by omega) (by push_cast; omega)))
    · exact Or.inl (Or.inr h)
    · exact Or.inr (Or.inl h)
    · exact Or.inr (Or.inr h)

/-- Bounds for the inner candidate sequence in the well-behaved regime
iv ≤ 174 (the clamped minimum iv + 16 lies strictly below the start 191):
every candidate lies in [iv + 16, 384]. -/
theorem oscillate_inner_bounds_mid {iv d : Int} (h1 : 0 ≤ iv) (h2 : iv ≤ 174)
    (hd : d ∈ oscillate 191 (iv + 16) 384) : iv + 16 ≤ d ∧ d ≤ 384 := by
  rw [@oscillate_eq_mid 191 (iv + 16) 384 (by omega) (by omega) (by omega)] at hd
  rw [if_neg (by rintro ⟨ha, hb⟩; omega)] at hd
  simp only [List.append_nil, List.mem_append, List.mem_cons, List.mem_singleton,
    List.not_mem_nil, or_false, mem_intRangeAsc] at hd
  rcases hd with (h | rfl) | rfl | h
  · rcases mem_ileave h with ⟨ha, hb⟩ | ⟨ha, hb⟩ <;> omega
  · omega
  · omega
  · omega

/-- Bounds for the inner candidate sequence in the broken regime iv ≥ 175
(start 191 at or below the clamped minimum iv + 16): every candidate lies in
[1, 381], in particular inside [0, 384], though not necessarily at or above
iv + 16. -/
theorem oscillate_inner_bounds_low {iv d : Int} (h1 : 175 ≤ iv)
    (hd : d ∈ oscillate 191 (iv + 16) 384) : 1 ≤ d ∧ d ≤ 381 := by
  rw [@oscillate_eq_low 191 (iv + 16) 384 (by omega) (by omega) (by omega)] at hd
  simp only [List.mem_append, List.mem_singleton] at hd
  rcases hd with h | rfl
  · rcases mem_ileave h with ⟨ha, hb⟩ | ⟨ha, hb⟩ <;> omega
  · omega

theorem intRangeAsc_nil {lo hi : Int} (h : hi < lo) : intRangeAsc lo hi = [] := by
  unfold intRangeAsc
  rw [(by omega : (hi + 1 - lo).toNat = 0)]
  rfl

theorem oscLoop_succ (n_min n_max : Int) (fuel : Nat) (i c : Int) :
    oscLoop n_min n_max (fuel + 1) i c =
      if i = n_max then ([], i, c)
      else if i - c = 0 ∨ i - c = n_min then ([i], i - c, c + 1)
      else
        ((i :: (i - c) :: (oscLoop n_min n_max fuel ((i - c) + (c + 1)) ((c + 1) + 1)).1,
          (oscLoop n_min n_max fuel ((i - c) + (c + 1)) ((c + 1) + 1)).2)) := by
  simp only [oscLoop]

theorem osc_take3 {n m n_max : Int} (hge : 0 ≤ m) (hcond : m ≤ n - 1 ∨ m = 0)
    (h2 : n + 1 ≤ n_max) (f : Nat) :
    (oscPhase2 n m n_max (oscLoop m n_max (f + 1 + 1) n 1)).take 3 = [n, n - 1, n + 1] := by
  rw [oscLoop_succ]
  rw [if_neg (by omega : ¬(n = n_max))]
  by_cases hA : n - 1 = 0 ∨ n - 1 = m
  · rw [if_pos hA]
    have hmeq : m = n - 1 := by rcases hA with h | h <;> rcases hcond with h3 | h3 <;> omega
    subst hmeq
    simp only [oscPhase2]
    rw [if_pos ⟨trivial, (by omega : ¬(2 * n = n - 1))⟩]
    simp only
    rw [show n - 1 + (1 + 1) = n + 1 by ring]
    rw [intRangeAsc_eq_cons h2]
    rfl
  · rw [if_neg hA]
    have hA1 : n - 1 ≠ 0 ∧ n - 1 ≠ m := by push_neg at hA; exact hA
    rw [show (n - 1) + (1 + 1) = n + 1 by ring]
    rw [oscLoop_succ]
    by_cases hB1 : n + 1 = n_max
    · rw [if_pos hB1]
      by_cases hBm : n + 1 = m
      · simp only [oscPhase2]
        rw [if_pos ⟨hBm, (by rcases hcond with h3 | h3 <;> omega : ¬(2 * n = n + 1))⟩]
        simp only
        rw [← hB1]
        rw [intRangeAsc_nil (by omega), if_neg (by rintro ⟨hc, _⟩; omega)]
        rfl
      · simp only [oscPhase2]
        rw [if_neg (fun hc => hBm hc.1)]
        simp only
        rw [if_pos ⟨hB1, (by omega : ¬(2 * n = n + 1))⟩]
        rw [← hB1]
        rfl
    · rw [if_neg hB1]
      by_cases hB2 : (n + 1) - ((1 + 1) + 1) = 0 ∨ (n + 1) - ((1 + 1) + 1) = m
      · rw [if_pos hB2]
        rfl
      · rw [if_neg hB2]
        rfl

/-- C8: for every start, min, max with start-1 and start+1 both inside
[min, max], the sequencer emits start, then start-1, then start+1. -/
theorem C8_oscillate_first_three {n n_min n_max : Int}
    (h1 : n_min ≤ n - 1) (h2 : n + 1 ≤ n_max) :
    (oscillate n n_min n_max).take 3 = [n, n - 1, n + 1] := by
  unfold oscillate
  show (oscPhase2 n (if n_min < 0 then 0 else n_min) n_max
    (oscLoop (if n_min < 0 then 0 else n_min) n_max
      (oscFuel n (if n_min < 0 then 0 else n_min) n_max) n 1)).take 3 = _
  obtain ⟨f, hf⟩ : ∃ f,
      oscFuel n (if n_min < 0 then 0 else n_min) n_max = f + 1 + 1 := ⟨_, rfl⟩
  rw [hf]
  apply osc_take3
  · split <;> omega
  · split
    · right
      rfl
    · left
      omega
  · exact h2

/-- Witness for C8 at start 5, min 0, max 10. -/
theorem C8_oscillate_first_three_witness :
    (0 : Int) ≤ 5 - 1 ∧ (5 : Int) + 1 ≤ 10 ∧ (oscillate 5 0 10).take 3 = [5, 4, 6] :=
  ⟨by decide, by decide, C8_oscillate_first_three (by decide) (by decide)⟩

/-- C1: the claim (and the docstring of oscillate) promise every value of
[min, max] exactly once and never a negative value; the code breaks both:
oscillate(6, 2, 10) emits 2 and 10 twice (the midpoint guard n != i / 2 only
works when min = 0), and oscillate(0, 0, 10) emits negative values. -/
theorem C1_oscillate_failing_input :
    oscillate 6 2 10 = [6, 5, 7, 4, 8, 3, 9, 2, 10, 10, 2] ∧
    ¬ (oscillate 6 2 10).Nodup ∧
    ((oscillate 0 0 10).any (fun x => x < 0)) = true := by
  refine ⟨by decide, by decide, by decide⟩

/-- C5 counterexample: the outer loop probes ivOffset 175, and at that iv
offset the inner candidate sequence performs a trial decryption at
dataOffset 190, violating the invariant dataOffset ≥ ivOffset + 16 = 191. -/
theorem C5_offset_invariant_counterexample :
    (175 : Int) ∈ oscillate DEFAULT_IV_OFFSET 0 (HEADER_SIZE - 128) ∧
    (190 : Int) ∈ oscillate DEFAULT_DATA_OFFSET (175 + 16) (HEADER_SIZE - 128) ∧
    ¬((175 : Int) + 16 ≤ 190) := by
  refine ⟨?_, by decide, by decide⟩
  show (175 : Int) ∈ oscillate 67 0 384
  exact oscillate_outer_mem.mpr (by decide)

/-- C5 amended: every probed pair (ivOffset, dataOffset) satisfies
0 ≤ ivOffset ≤ 384 and 0 ≤ dataOffset ≤ 384 (the upper bound
len(HeaderBuffer) - 128); the remaining part of the invariant,
dataOffset ≥ ivOffset + 16, holds whenever ivOffset ≤ 174, that is whenever
the inner minimum ivOffset + 16 stays below the default start 191, but can
fail for larger iv offsets. -/
theorem C5_offset_invariant_amended {iv d : Int}
    (hiv : iv ∈ oscillate DEFAULT_IV_OFFSET 0 (HEADER_SIZE - 128))
    (hd : d ∈ oscillate DEFAULT_DATA_OFFSET (iv + 16) (HEADER_SIZE - 128)) :
    (0 ≤ iv ∧ iv ≤ 384) ∧ (0 ≤ d ∧ d ≤ 384) ∧ (iv ≤ 174 → iv + 16 ≤ d) := by
  have hiv2 : iv ∈ oscillate 67 0 384 := hiv
  have hd2 : d ∈ oscillate 191 (iv + 16) 384 := hd
  have hiv3 := oscillate_outer_mem.mp hiv2
  by_cases hc : iv ≤ 174
  · have hb := oscillate_inner_bounds_mid hiv3.1 hc hd2
    exact ⟨hiv3, ⟨by omega, by omega⟩, fun _ => hb.1⟩
  · have hb := oscillate_inner_bounds_low (by omega) hd2
    exact ⟨hiv3, ⟨by omega, by omega⟩, fun h => absurd h hc⟩

/-- Witness for the amended C5 at the first probed pair (67, 191). -/
theorem C5_offset_invariant_amended_witness :
    ((0 : Int) ≤ 67 ∧ (67 : Int) ≤ 384) ∧ ((0 : Int) ≤ 191 ∧ (191 : Int) ≤ 384) ∧
      ((67 : Int) ≤ 174 → (67 : Int) + 16 ≤ 191) :=
  C5_offset_invariant_amended (by decide) (by decide)

/-- If every probe in the list answers -1, the discovery loop exhausts it. -/
theorem discoverLoop_all_none {probe : Int → Except Err Int} :
    ∀ {l : List Int}, (∀ iv ∈ l, probe iv = .ok (-1)) →
      discoverLoop probe l = .ok none := by
  intro l
  induction l with
  | nil => intro _; rfl
  | cons a t ih =>
    intro h
    simp only [discoverLoop]
    rw [h a (List.mem_cons_self a t)]
    exact ih (fun iv hiv => h iv (List.mem_cons_of_mem a hiv))

/-- A successful discovery loop returns the first probe hit: the returned iv
is in the list, its probe answered the returned offset (not -1), and every
earlier entry answered -1. -/
theorem discoverLoop_first_hit {probe : Int → Except Err Int} :
    ∀ {l : List Int} {iv d : Int}, discoverLoop probe l = .ok (some (iv, d)) →
      probe iv = .ok d ∧ d ≠ -1 ∧
      ∃ l1 l2, l = l1 ++ iv :: l2 ∧ ∀ x ∈ l1, probe x = .ok (-1) := by
  intro l
  induction l with
  | nil =>
    intro iv d h
    exact absurd h (by simp [discoverLoop])
  | cons a t ih =>
    intro iv d h
    simp only [discoverLoop] at h
    cases hp : probe a with
    | error e =>
      rw [hp] at h
      exact Except.noConfusion h
    | ok off =>
      rw [hp] at h
      by_cases hoff : off = -1
      · subst hoff
        have h2 : (if (-1 : Int) ≠ -1 then Except.ok (some (a, (-1 : Int)))
            else discoverLoop probe t) = Except.ok (some (iv, d)) := h
        rw [if_neg (by simp)] at h2
        obtain ⟨hp2, hne, l1, l2, hsplit, hall⟩ := ih h2
        refine ⟨hp2, hne, a :: l1, l2, by rw [hsplit]; rfl, ?_⟩
        intro x hx
        rcases List.mem_cons.mp hx with rfl | hx2
        · exact hp
        · exact hall x hx2
      · have h2 : (if off ≠ -1 then Except.ok (some (a, off))
            else discoverLoop probe t) = Except.ok (some (iv, d)) := h
        rw [if_pos hoff] at h2
        have h3 := Option.some.inj (Except.ok.inj h2)
        obtain ⟨rfl, rfl⟩ : a = iv ∧ off = d := Prod.mk.injEq .. ▸ h3
        exact ⟨hp, hoff, [], t, rfl, by simp⟩

/-- C4: discovery iterates ivOffset over oscillate(67, 0, 384), whose members
are exactly [0, 384]; if every probe answers NOT_FOUND the run fails with the
offsets-not-found fatal error, and a successful discovery returns the first
iv offset whose probe answered something other than -1, together with that
answer, every earlier iv offset having answered -1. -/
theorem C4_discovery_first_hit (probe : Int → Except Err Int) :
    ((∀ iv ∈ oscillate DEFAULT_IV_OFFSET 0 (HEADER_SIZE - 128), probe iv = .ok (-1)) →
      discover probe = .error .offsetsNotFound) ∧
    (∀ iv d, discover probe = .ok (iv, d) →
      probe iv = .ok d ∧ d ≠ -1 ∧
      ∃ l1 l2, oscillate DEFAULT_IV_OFFSET 0 (HEADER_SIZE - 128) = l1 ++ iv :: l2 ∧
        ∀ x ∈ l1, probe x = .ok (-1)) ∧
    (∀ x : Int, x ∈ oscillate DEFAULT_IV_OFFSET 0 (HEADER_SIZE - 128) ↔ 0 ≤ x ∧ x ≤ 384) := by
  refine ⟨?_, ?_, ?_⟩
  · intro h
    unfold discover
    rw [discoverLoop_all_none h]
  · intro iv d h
    unfold discover at h
    cases hl : discoverLoop probe (oscillate DEFAULT_IV_OFFSET 0 (HEADER_SIZE - 128)) with
    | error e =>
      rw [hl] at h
      exact Except.noConfusion h
    | ok o =>
      cases o with
      | none =>
        rw [hl] at h
        exact absurd h (by simp)
      | some p =>
        rw [hl] at h
        have h2 : Except.ok p = Except.ok (iv, d) := h
        obtain rfl := Except.ok.inj h2
        exact discoverLoop_first_hit hl
  · intro x
    exact oscillate_outer_mem

/-- Witness for C4: a probe that always answers -1 makes discovery fail with
offsetsNotFound. -/
theorem C4_discovery_first_hit_witness :
    discover (fun _ => Except.ok (-1)) = Except.error Err.offsetsNotFound :=
  (C4_discovery_first_hit (fun _ => Except.ok (-1))).1 (fun _ _ => rfl)

/-- C6: offset discovery is a pure function of the header, the key, the force
flag and the collaborator models: two runs on equal headers and equal keys
return equal results. -/
theorem C6_discovery_deterministic {ZS CS : Type} (Z : ZlibModel ZS)
    (C : CipherModel CS) (force : Bool) (h1 h2 k1 k2 : List Nat)
    (hh : h1 = h2) (hk : k1 = k2) :
    discover (fun iv => find_data_offset Z C force h1 iv k1) =
    discover (fun iv => find_data_offset Z C force h2 iv k2) := by
  subst hh
  subst hk
  rfl

/-- Witness for C6 on concrete inputs. -/
theorem C6_discovery_deterministic_witness :
    discover (fun iv => find_data_offset ZTriv CId false headerZeros iv t1Ones) =
    discover (fun iv => find_data_offset ZTriv CId false headerZeros iv t1Ones) :=
  C6_discovery_deterministic ZTriv CId false headerZeros headerZeros t1Ones t1Ones rfl rfl

/-- C7: before offset discovery, the 32 byte t1 is searched verbatim in the
512 byte header; if it is absent and force is not set, the run stops with the
t1Missing precondition failure (a distinct failure site from
offsetsNotFound), before any discovery or decryption. -/
theorem C7_t1_precondition {ZS CS : Type} (Z : ZlibModel ZS) (C : CipherModel CS)
    (t1 key fileBytes : List Nat) (mem : Bool)
    (hlen : 512 ≤ fileBytes.length)
    (hsig : (fileBytes.take 512).take 15 ≠ sqliteSig)
    (ht1 : bfind (fileBytes.take 512) t1 = -1) :
    decrypt14 Z C false t1 key fileBytes mem = .error .t1Missing := by
  unfold decrypt14
  have e : HEADER_SIZE.toNat = 512 := rfl
  rw [e]
  rw [if_neg (by simp only [List.length_take]; omega)]
  rw [if_neg hsig, if_pos ht1]
  rfl

/-- C9: after the t1 cross-check, the header must contain exactly one
substring matching the version pattern; when the count differs from one and
force is not set, the run stops with versionMissing before offset
discovery. -/
theorem C9_version_precondition {ZS CS : Type} (Z : ZlibModel ZS) (C : CipherModel CS)
    (t1 key fileBytes : List Nat) (mem : Bool)
    (hlen : 512 ≤ fileBytes.length)
    (hsig : (fileBytes.take 512).take 15 ≠ sqliteSig)
    (ht1 : bfind (fileBytes.take 512) t1 ≠ -1)
    (hver : verCount (fileBytes.take 512) ≠ 1) :
    decrypt14 Z C false t1 key fileBytes mem = .error .versionMissing := by
  unfold decrypt14
  have e : HEADER_SIZE.toNat = 512 := rfl
  rw [e]
  rw [if_neg (by simp only [List.length_take]; omega)]
  rw [if_neg hsig, if_neg ht1, if_pos hver]
  rfl

set_option maxRecDepth 100000 in
/-- Witness for C7: an all-zero header with a t1 of ones. -/
theorem C7_witness :
    decrypt14 ZTriv CId false t1Ones [] headerZeros true = .error .t1Missing :=
  C7_t1_precondition ZTriv CId t1Ones [] headerZeros true (by decide) (by decide) (by decide)

set_option maxRecDepth 100000 in
/-- Witness for C9: a header that contains t1 but no version string. -/
theorem C9_witness :
    decrypt14 ZTriv CId false t1Ones [] headerT1 true = .error .versionMissing :=
  C9_version_precondition ZTriv CId t1Ones [] headerT1 true (by decide) (by decide)
    (by decide) (by decide)

/-- C3: in both modes, once all input has been consumed the decompressor eof
flag is checked; a dirty end of stream is always reported (never a silent
success); in chunked mode without force the already-written output is
truncated to zero length before the fatal exit, while with force the partial
output is retained and the failure is non-fatal. -/
theorem C3_truncation_check {ZS CS : Type} (Z : ZlibModel ZS) (C : CipherModel CS)
    (force : Bool) (key iv input : List Nat) :
    (∀ out zs, Z.zfeed Z.zinit ((C.cdec (C.cinit key iv) input).1) = some (out, zs) →
      Z.zeof zs = false →
      (streamWhole Z C force key iv input).truncationReported = true ∧
      (force = false → streamWhole Z C force key iv input =
        ⟨[], some .truncated, true⟩) ∧
      (force = true → streamWhole Z C force key iv input = ⟨out, none, true⟩)) ∧
    (∀ f zs, chunkLoop Z C (chunkify input) Z.zinit (C.cinit key iv) [] = .finished f zs →
      Z.zeof zs = false →
      (streamChunked Z C force key iv input).truncationReported = true ∧
      (force = false → streamChunked Z C force key iv input =
        ⟨[], some .truncated, true⟩) ∧
      (force = true → streamChunked Z C force key iv input = ⟨f, none, true⟩)) := by
  constructor
  · intro out zs hfeed heof
    cases force <;> simp [streamWhole, hfeed, heof]
  · intro f zs hloop heof
    cases force <;> simp [streamChunked, hloop, heof]

/-- C10: in whole-buffer mode without force, a dirty end of stream exits
before the single write, so the output file stays empty with no explicit
truncate. -/
theorem C10_whole_mode_no_write {ZS CS : Type} (Z : ZlibModel ZS) (C : CipherModel CS)
    (key iv input : List Nat) (out : List Nat) (zs : ZS)
    (hfeed : Z.zfeed Z.zinit ((C.cdec (C.cinit key iv) input).1) = some (out, zs))
    (heof : Z.zeof zs = false) :
    (streamWhole Z C false key iv input).file = [] ∧
    streamWhole Z C false key iv input = ⟨[], some .truncated, true⟩ := by
  simp [streamWhole, hfeed, heof]

/-- Witness for C3: an echoing decompressor that never reports eof. -/
theorem C3_witness :
    (streamWhole ZNoEof CId false [] [] [7]).truncationReported = true ∧
    streamWhole ZNoEof CId false [] [] [7] = ⟨[], some .truncated, true⟩ ∧
    streamChunked ZNoEof CId false [] [] [7] = ⟨[], some .truncated, true⟩ :=
  ⟨((C3_truncation_check ZNoEof CId false [] [] [7]).1 [7] 1 rfl rfl).1,
   ((C3_truncation_check ZNoEof CId false [] [] [7]).1 [7] 1 rfl rfl).2.1 rfl,
   ((C3_truncation_check ZNoEof CId false [] [] [7]).2 [7] 1 rfl rfl).2.1 rfl⟩

/-- Witness for C10 on the same concrete run. -/
theorem C10_witness :
    (streamWhole ZNoEof CId false [] [] [7]).file = [] :=
  (C10_whole_mode_no_write ZNoEof CId [] [] [7] [7] 1 rfl rfl).1

/-- The candidate loop of find_data_offset only returns a candidate (other
than -1) whose confirmation check returned True. -/
theorem findLoop_ok {ZS CS : Type} {Z : ZlibModel ZS} {C : CipherModel CS}
    {force : Bool} {header key iv : List Nat} :
    ∀ {l : List Int} {i : Int}, findLoop Z C force header key iv l = .ok i → i ≠ -1 →
      i ∈ l ∧ test_decompression Z force (decOnce C key iv (pyDrop header i)) = .ok true := by
  intro l
  induction l with
  | nil =>
    intro i h hne
    exact absurd (Except.ok.inj h).symm hne
  | cons a t ih =>
    intro i h hne
    simp only [findLoop] at h
    by_cases hmagic : decOnce C key iv (pySlice header a (a + 2)) = zipHeader
    · rw [if_pos hmagic] at h
      cases hres : test_decompression Z force (decOnce C key iv (pyDrop header a)) with
      | error e =>
        rw [hres] at h
        exact Except.noConfusion h
      | ok tv =>
        rw [hres] at h
        cases tv with
        | true =>
          have h2 : Except.ok a = Except.ok i := h
          obtain rfl := Except.ok.inj h2
          exact ⟨List.mem_cons_self a t, hres⟩
        | false =>
          have h2 : findLoop Z C force header key iv t = .ok i := h
          obtain ⟨hmem, hgood⟩ := ih h2 hne
          exact ⟨List.mem_cons_of_mem a hmem, hgood⟩
    · rw [if_neg hmagic] at h
      obtain ⟨hmem, hgood⟩ := ih h hne
      exact ⟨List.mem_cons_of_mem a hmem, hgood⟩

/-- C2 amended: of the three confirmation-failure modes, only a raised
decompression error is a silent non-match; a decompression shorter than 16
bytes or a wrong signature raises a logged error that is fatal unless force
is set, and under force a wrong signature is accepted as a match (the code
returns log.force); a short decompression under force is skipped as a
non-match; in every case, a candidate other than -1 is only ever returned
when its confirmation check returned True. -/
theorem C2_confirmation_amended {ZS CS : Type} (Z : ZlibModel ZS) (C : CipherModel CS)
    (force : Bool) (data : List Nat) :
    (zDecOne Z data = none → test_decompression Z force data = .ok false) ∧
    (∀ out, zDecOne Z data = some out → out.length < 16 →
      test_decompression Z force data =
        if force then .ok false else .error .chunkTooSmall) ∧
    (∀ out, zDecOne Z data = some out → 16 ≤ out.length →
      ((out.take 15).any (fun b => 128 ≤ b)) = false →
      out.take 15 ≠ sqliteSig →
      test_decompression Z force data =
        if force then .ok true else .error .sigMismatch) ∧
    (∀ (header key iv : List Nat) (l : List Int) (i : Int),
      findLoop Z C force header key iv l = .ok i → i ≠ -1 →
      i ∈ l ∧ test_decompression Z force (decOnce C key iv (pyDrop header i)) = .ok true) := by
  refine ⟨?_, ?_, ?_, ?_⟩
  · intro h
    unfold test_decompression
    rw [h]
  · intro out h hlen
    cases force <;> simp [test_decompression, h, logE, hlen]
  · intro out h hlen hascii hsig
    have hlen2 : ¬(out.length < 16) := by omega
    cases force <;> simp [test_decompression, h, logE, hascii, hsig, hlen2]
  · exact fun header key iv l i h hne => findLoop_ok h hne

/-- C2 counterexample: with a decompressor that yields 16 bytes failing the
signature check, the magic matches at the default data offset 191 but the
confirmation fails; with force the candidate IS returned as a match, and
without force the failure IS fatal -- both contradicting the claim that such
a failure is non-fatal, continues the search, and never returns the
candidate. -/
theorem C2_confirmation_counterexample :
    find_data_offset ZBad CId true headerCE 0 [] = .ok 191 ∧
    badOut.take 15 ≠ sqliteSig ∧
    find_data_offset ZBad CId false headerCE 0 [] = .error .sigMismatch := by
  refine ⟨by rfl, by decide, by rfl⟩

/-- Witness for the amended C2: a raising decompressor makes the check a
silent non-match. -/
theorem C2_confirmation_amended_witness :
    test_decompression ZTriv false ([] : List Nat) = .ok false :=
  (C2_confirmation_amended ZTriv CId false []).1 rfl
